import Mathlib

/-!
Verification of the dsp signal-processing library (src/signal.rs,
src/signals.rs, src/fft.rs) against its natural-language specification.

Conventions of the shallow embedding:
* f64 values are modelled exactly: time values and wave parameters as
  rationals (ℚ), amplitudes as reals (ℝ), Complex64 samples as ℂ.
  Floating-point rounding is outside the model; every claim settled here
  is robust to it (it concerns loop structure, lengths, field selection
  and exact algebraic identities).
* the continuous Signal of src/signal.rs is a boxed closure f64 → Complex64
  and is modelled as a plain function ℚ → ℂ.
* the while loop inside sample is modelled with an explicit fuel argument:
  a result of none means the loop has not finished within the given fuel,
  so nontermination is the statement that every fuel amount yields none.
* the rand crate's normal distribution is an external collaborator; it is
  modelled as an oracle stream of real draws, one per consumed index.
-/

namespace Dsp

/-- Discrete time signal from src/signals.rs: a vector of complex samples
paired with the sample frequency. -/
structure Signal where
  data : List ℂ
  sample_freq : ℕ

/-- Derived PartialEq of the Signal struct in src/signals.rs: the derive
compares every field in order, so both the sample vector and the
sample_freq field participate. -/
def Signal.eqRust (x y : Signal) : Prop :=
  x.data = y.data ∧ x.sample_freq = y.sample_freq

/-- Signal::new from src/signals.rs: wraps the vector, sample_freq is set
to the data length. -/
def Signal.new (data : List ℂ) : Signal :=
  { data := data, sample_freq := data.length }

/-- Signal::from_reals from src/signals.rs: real samples with zero
imaginary part, sample_freq is the data length. -/
def Signal.from_reals (data : List ℝ) : Signal :=
  { data := data.map (fun x => (x : ℂ)), sample_freq := data.length }

/-- Signal::len from src/signals.rs. -/
def Signal.len (s : Signal) : ℕ :=
  s.data.length

/-- Signal::get from src/signals.rs: index with an isize, returning 0 when
the index is out of bounds. -/
def Signal.get (s : Signal) (i : ℤ) : ℂ :=
  if i < 0 ∨ (s.data.length : ℤ) ≤ i then 0 else s.data.getD i.toNat 0

/-- Signal::to_vec from src/signals.rs: a copy of the sample vector. -/
def Signal.to_vec (s : Signal) : List ℂ :=
  s.data

/-- Signal::shift from src/signals.rs: pushes get(n - k) for n in 0..size
and wraps the result with Signal::new. -/
def Signal.shift (s : Signal) (k : ℤ) : Signal :=
  Signal.new ((List.range s.data.length).map (fun n : ℕ => s.get ((n : ℤ) - k)))

/-- Loop body of Signal::integrate from src/signals.rs: the accumulator
starts at 0 and each step pushes the running sum. -/
def integrateAux : List ℂ → ℂ → List ℂ
  | [], _ => []
  | x :: xs, acc => (acc + x) :: integrateAux xs (acc + x)

/-- Signal::integrate from src/signals.rs. -/
def Signal.integrate (s : Signal) : Signal :=
  Signal.new (integrateAux s.data 0)

/-- Loop body of Signal::differentiate from src/signals.rs: last starts
at 0 and each step pushes x[n] - last. -/
def differentiateAux : List ℂ → ℂ → List ℂ
  | [], _ => []
  | x :: xs, last => (x - last) :: differentiateAux xs x

/-- Signal::differentiate from src/signals.rs. -/
def Signal.differentiate (s : Signal) : Signal :=
  Signal.new (differentiateAux s.data 0)

/-! Helper lemmas about list access. -/

lemma getD_range_map (f : ℕ → ℂ) {n k : ℕ} (h : k < n) :
    ((List.range n).map f).getD k 0 = f k := by
  rw [List.getD_eq_getElem?_getD, List.getElem?_map, List.getElem?_range h]
  rfl

lemma Signal.get_in_range (s : Signal) (n : ℕ) (h : n < s.data.length) :
    s.get (n : ℤ) = s.data.getD n 0 := by
  rw [Signal.get, if_neg, Int.toNat_natCast]
  push_neg
  constructor
  · exact_mod_cast Int.natCast_nonneg n
  · exact_mod_cast h

/-- C4 counterexample: the derived equality of the Signal struct compares
the sample_freq field as well, so two raw Signal values with identical
sample vectors but different declared sample rates are not equal, contrary
to the claim that the sample rate does not participate in equality. -/
theorem signal_eq_compares_sample_freq :
    (Signal.mk [1] 1).data = (Signal.mk [1] 2).data
      ∧ ¬ Signal.eqRust (Signal.mk [1] 1) (Signal.mk [1] 2) := by
  refine ⟨rfl, ?_⟩
  rintro ⟨-, h⟩
  exact absurd h (by norm_num)

/-- C4 (amended): the derived equality holds iff both the sample vectors
and the sample_freq fields agree; for signals satisfying the constructor
invariant sample_freq = length (every value built by Signal::new,
Signal::from_reals or the derived operations satisfies it) equality is
therefore equivalent to element-wise equality of the sample sequences. -/
theorem signal_eq_iff_data_eq (x y : Signal)
    (hx : x.sample_freq = x.data.length) (hy : y.sample_freq = y.data.length) :
    Signal.eqRust x y ↔ x.data = y.data := by
  constructor
  · rintro ⟨h, -⟩
    exact h
  · intro h
    exact ⟨h, by rw [hx, hy, h]⟩

/-- Witness for C4's amended theorem at concrete signals. -/
theorem signal_eq_iff_data_eq_witness :
    (Signal.new [1, 2]).sample_freq = (Signal.new [1, 2]).data.length
      ∧ (Signal.new [0]).sample_freq = (Signal.new [0]).data.length
      ∧ (Signal.eqRust (Signal.new [1, 2]) (Signal.new [0])
          ↔ (Signal.new [1, 2]).data = (Signal.new [0]).data) :=
  ⟨rfl, rfl, signal_eq_iff_data_eq (Signal.new [1, 2]) (Signal.new [0]) rfl rfl⟩

/-- C6: shift keeps the length, satisfies y[n] = x[n - k] with the
zero-outside-range convention of get, and shifting by 0 reproduces the
signal (under the constructor invariant sample_freq = length, which every
signal built by this module satisfies). -/
theorem shift_matches_spec (x : Signal) (k : ℤ)
    (hx : x.sample_freq = x.data.length) :
    (x.shift k).data.length = x.data.length
      ∧ (∀ n : ℕ, n < x.data.length →
          (x.shift k).get (n : ℤ) = x.get ((n : ℤ) - k))
      ∧ Signal.eqRust (x.shift 0) x := by
  have hlen : ∀ j : ℤ, (x.shift j).data.length = x.data.length := by
    intro j
    simp [Signal.shift, Signal.new]
  have hget : ∀ (j : ℤ) (n : ℕ), n < x.data.length →
      (x.shift j).get (n : ℤ) = x.get ((n : ℤ) - j) := by
    intro j n hn
    rw [Signal.get_in_range _ n (by rw [hlen]; exact hn)]
    show ((List.range x.data.length).map
      (fun m : ℕ => x.get ((m : ℤ) - j))).getD n 0 = _
    rw [getD_range_map _ hn]
  refine ⟨hlen k, hget k, ?_, ?_⟩
  · apply List.ext_getElem
    · rw [hlen]
    · intro n h1 h2
      have hn : n < x.data.length := by rw [← hlen 0]; exact h1
      have := hget 0 n hn
      rw [Signal.get_in_range _ n (by rw [hlen]; exact hn)] at this
      rw [← List.getD_eq_getElem (x.shift 0).data 0 h1, this, sub_zero,
        Signal.get_in_range _ n hn, List.getD_eq_getElem x.data 0 h2]
  · rw [hx]
    show ((List.range x.data.length).map _).length = _
    rw [List.length_map, List.length_range]

/-- Witness for C6 at a concrete signal and shift amount. -/
theorem shift_matches_spec_witness :
    (Signal.new [1, 0]).sample_freq = (Signal.new [1, 0]).data.length
      ∧ (((Signal.new [1, 0]).shift 1).data.length
            = (Signal.new [1, 0]).data.length
          ∧ (∀ n : ℕ, n < (Signal.new [1, 0]).data.length →
              ((Signal.new [1, 0]).shift 1).get (n : ℤ)
                = (Signal.new [1, 0]).get ((n : ℤ) - 1))
          ∧ Signal.eqRust ((Signal.new [1, 0]).shift 0) (Signal.new [1, 0])) :=
  ⟨rfl, shift_matches_spec (Signal.new [1, 0]) 1 rfl⟩

lemma differentiateAux_integrateAux (l : List ℂ) :
    ∀ acc : ℂ, differentiateAux (integrateAux l acc) acc = l := by
  induction l with
  | nil => intro acc; rfl
  | cons x xs ih =>
    intro acc
    show (acc + x - acc) :: differentiateAux (integrateAux xs (acc + x)) (acc + x)
      = x :: xs
    rw [ih (acc + x)]
    congr 1
    ring

/-- C10: the running sum followed by the first difference is the identity
on the sample sequence, exactly, over exact complex arithmetic. -/
theorem integrate_differentiate_id (x : Signal) :
    x.integrate.differentiate.data = x.data := by
  show differentiateAux (integrateAux x.data 0) 0 = x.data
  exact differentiateAux_integrateAux x.data 0

/-! Continuous signals (src/signal.rs). -/

/-- impulse() from src/signal.rs: 1 at time 0, else 0. -/
def impulse : ℚ → ℂ := fun i =>
  if i = 0 then 1 else 0

/-- Truncation toward zero, the rounding used by Rust's float remainder
operator. -/
def truncQ (x : ℚ) : ℤ :=
  if 0 ≤ x then ⌊x⌋ else ⌈x⌉

/-- Rust's % operator on f64 values (used by square in src/signal.rs):
remainder with the sign of the dividend, x - y * trunc(x / y); exact on
f64 inputs, so the rational model is faithful. -/
def fRem (x y : ℚ) : ℚ :=
  x - y * truncQ (x / y)

/-- square(freq) from src/signal.rs: with a = freq * i % 1, the value is
+1 when a < -0.5 or 0 < a < 0.5, else -1, returned as a complex number
with zero imaginary part. -/
def square (freq : ℚ) : ℚ → ℂ := fun i =>
  ((if fRem (freq * i) 1 < -(1/2)
      ∨ (0 < fRem (freq * i) 1 ∧ fRem (freq * i) 1 < 1/2)
    then (1 : ℝ) else -1) : ℂ)

/-- sample from src/signal.rs, its while loop instrumented with fuel: the
loop runs while i < e, pushing signal(i) and then stepping i by step. A
result of none means the loop is still running after the given number of
iterations, so the loop terminates at the given arguments iff some fuel
amount returns some. The Vec::with_capacity size hint does not affect the
produced sequence and is not modelled. -/
def sampleFuel (signal : ℚ → ℂ) (e step : ℚ) : ℕ → ℚ → Option (List ℂ)
  | 0, i => if i < e then none else some []
  | fuel + 1, i =>
      if i < e then
        (sampleFuel signal e step fuel (i + step)).map (fun v => signal i :: v)
      else some []

lemma sampleFuel_none_of_nonpos (signal : ℚ → ℂ) (e step : ℚ)
    (hstep : step ≤ 0) :
    ∀ (fuel : ℕ) (i : ℚ), i < e → sampleFuel signal e step fuel i = none := by
  intro fuel
  induction fuel with
  | zero =>
    intro i hi
    simp only [sampleFuel, if_pos hi]
  | succ n ih =>
    intro i hi
    simp only [sampleFuel, if_pos hi, ih (i + step) (by linarith)]
    rfl

/-- C1: with start 0 < end 1 and the non-positive step -1, the sampling
loop of sample never terminates, whatever the iteration budget: the index
only decreases and stays below end forever. The claimed validation (an
immediate empty result for non-positive step) is absent from the code;
only the start ≥ end case returns empty. -/
theorem sample_nonpositive_step_never_terminates :
    ∀ fuel : ℕ, sampleFuel impulse 1 (-1) fuel 0 = none := by
  intro fuel
  exact sampleFuel_none_of_nonpos impulse 1 (-1) (by norm_num) fuel 0 (by norm_num)

lemma sampleFuel_count (signal : ℚ → ℂ) (e step : ℚ) (hstep : 0 < step) :
    ∀ (n : ℕ) (i : ℚ), (⌈(e - i) / step⌉).toNat = n →
      sampleFuel signal e step n i
        = some ((List.range n).map (fun k : ℕ => signal (i + k * step))) := by
  have hne : step ≠ 0 := ne_of_gt hstep
  intro n
  induction n with
  | zero =>
    intro i hn
    have hle : ¬ i < e := by
      intro hlt
      have h1 : 0 < (e - i) / step := div_pos (by linarith) hstep
      have h2 : 0 < ⌈(e - i) / step⌉ := Int.ceil_pos.mpr h1
      omega
    simp only [sampleFuel, if_neg hle, List.range_zero, List.map_nil]
  | succ n ih =>
    intro i hn
    have hceil : ⌈(e - i) / step⌉ = n + 1 := by omega
    have hpos : 0 < (e - i) / step := Int.ceil_pos.mp (by omega)
    have hlt : i < e := by
      rcases div_pos_iff.mp hpos with ⟨hei, -⟩ | ⟨-, hs⟩
      · linarith [hei]
      · linarith [hs]
    have hnext : (⌈(e - (i + step)) / step⌉).toNat = n := by
      have hdiv : (e - (i + step)) / step = (e - i) / step - 1 := by
        field_simp
        ring
      rw [hdiv, Int.ceil_sub_one, hceil]
      omega
    simp only [sampleFuel, if_pos hlt]
    rw [ih (i + step) hnext, List.range_succ_eq_map, List.map_cons, List.map_map]
    show some (signal i :: _) = some (_ :: _)
    congr 2
    · congr 1
      push_cast
      ring
    · refine List.map_congr_left (fun m _ => ?_)
      show signal (i + step + (m : ℚ) * step) = signal (i + ((m + 1 : ℕ) : ℚ) * step)
      congr 1
      push_cast
      ring

lemma sample_time_lt (e step start : ℚ) (hstep : 0 < step) (k : ℕ)
    (hk : (k : ℤ) < ⌈(e - start) / step⌉) : start + k * step < e := by
  have h1 : ((k : ℤ) : ℚ) < (e - start) / step := Int.lt_ceil.mp hk
  have h2 : (k : ℚ) < (e - start) / step := by push_cast at h1; exact h1
  have h3 : (k : ℚ) * step < e - start := (lt_div_iff₀ hstep).mp h2
  linarith

/-- C5 (amended): for start < end and positive step, sample produces the
samples signal(start + k·step) for k = 0, 1, …, exactly those whose time
lies strictly below end; the number of samples is ⌈(end − start)/step⌉,
which exceeds the claimed ⌊(end − start)/step⌋ whenever step does not
divide end − start. -/
theorem sample_count_and_times (signal : ℚ → ℂ) (start e step : ℚ)
    (_h1 : start < e) (h2 : 0 < step) :
    sampleFuel signal e step (⌈(e - start) / step⌉).toNat start
        = some ((List.range (⌈(e - start) / step⌉).toNat).map
            (fun k : ℕ => signal (start + k * step)))
      ∧ ∀ k : ℕ, k < (⌈(e - start) / step⌉).toNat → start + k * step < e := by
  constructor
  · exact sampleFuel_count signal e step h2 _ start rfl
  · intro k hk
    exact sample_time_lt e step start h2 k (by omega)

/-- Witness for C5's amended theorem: sampling over [0, 1) with step 1/2. -/
theorem sample_count_and_times_witness :
    ((0:ℚ) < 1) ∧ ((0:ℚ) < 1/2)
      ∧ (sampleFuel impulse 1 (1/2) (⌈((1:ℚ) - 0) / (1/2)⌉).toNat 0
            = some ((List.range (⌈((1:ℚ) - 0) / (1/2)⌉).toNat).map
                (fun k : ℕ => impulse (0 + k * (1/2))))
          ∧ ∀ k : ℕ, k < (⌈((1:ℚ) - 0) / (1/2)⌉).toNat → (0:ℚ) + k * (1/2) < 1) :=
  ⟨by norm_num, by norm_num,
    sample_count_and_times impulse 0 1 (1/2) (by norm_num) (by norm_num)⟩

/-- C5 counterexample: sampling over [0, 1) with step 2/5 yields 3 samples
(at times 0, 2/5 and 4/5) although ⌊(1 − 0)/(2/5)⌋ = 2, refuting the
claimed sample count. -/
theorem sample_count_not_floor :
    (sampleFuel impulse 1 (2/5) 3 0).map List.length = some 3
      ∧ ⌊((1:ℚ) - 0) / (2/5)⌋ = 2 := by
  constructor
  · norm_num [sampleFuel]
  · have h : ((1:ℚ) - 0) / (2/5) = 5/2 := by norm_num
    rw [h, Int.floor_eq_iff]
    norm_num

/-- C8: the square wave of src/signal.rs equals +1 exactly when the
truncated remainder freq·t % 1 lies in (-∞, -0.5) ∪ (0, 0.5) and equals
-1 otherwise; in particular at remainder exactly 0 (for example t = 0,
freq = 1) and exactly 0.5 (t = 1/2, freq = 1) the value is -1. -/
theorem square_matches_spec (freq t : ℚ) :
    (square freq t = 1
        ↔ (fRem (freq * t) 1 < -(1/2)
            ∨ (0 < fRem (freq * t) 1 ∧ fRem (freq * t) 1 < 1/2)))
      ∧ (square freq t = -1
        ↔ ¬ (fRem (freq * t) 1 < -(1/2)
            ∨ (0 < fRem (freq * t) 1 ∧ fRem (freq * t) 1 < 1/2)))
      ∧ square 1 0 = -1
      ∧ square 1 (1/2) = -1 := by
  have hb : ∀ u v : ℚ, square u v = -1 ↔
      ¬ (fRem (u * v) 1 < -(1/2)
        ∨ (0 < fRem (u * v) 1 ∧ fRem (u * v) 1 < 1/2)) := by
    intro u v
    by_cases h : fRem (u * v) 1 < -(1/2)
        ∨ (0 < fRem (u * v) 1 ∧ fRem (u * v) 1 < 1/2)
    · norm_num [square, h]
    · norm_num [square, h]
  refine ⟨?_, hb freq t, ?_, ?_⟩
  · by_cases h : fRem (freq * t) 1 < -(1/2)
        ∨ (0 < fRem (freq * t) 1 ∧ fRem (freq * t) 1 < 1/2)
    · norm_num [square, h]
    · norm_num [square, h]
  · rw [hb]
    norm_num [fRem, truncQ]
  · rw [hb]
    have hfloor : ⌊(1:ℚ)/2⌋ = 0 := by
      rw [Int.floor_eq_iff]
      norm_num
    norm_num [fRem, truncQ, hfloor]

/-! Energy, power and noise (src/signals.rs). -/

/-- Signal::energy from src/signals.rs: fold of (x * conj(x)).re starting
from 0. -/
def Signal.energy (s : Signal) : ℝ :=
  s.data.foldl (fun acc x => acc + (x * (starRingEnd ℂ) x).re) 0

/-- IEEE f64 division as performed by Signal::power: Rust float division
never panics; dividing by a zero length produces a non-finite value (NaN
for 0.0/0.0), which has no counterpart in ℝ and is modelled as none. A
some result is the ordinary finite quotient. -/
noncomputable def div64 (a : ℝ) (n : ℕ) : Option ℝ :=
  if n = 0 then none else some (a / n)

/-- Signal::power from src/signals.rs: energy() divided by the length. -/
noncomputable def Signal.power (s : Signal) : Option ℝ :=
  div64 s.energy s.data.length

/-- C7 counterexample: on the empty signal, power() evaluates the IEEE
division 0.0/0.0 and silently returns its non-finite result (NaN,
modelled as none). The value is an ordinary f64 return value: the source
has no panic, no Result type and no error path, so no explicit error is
surfaced to the caller. -/
theorem power_empty_silently_nan :
    Signal.power (Signal.new []) = none := by
  simp [Signal.power, Signal.new, div64]

/-- C7 (amended): power() is a total function with no error channel: on
the empty signal it silently returns the non-finite IEEE quotient 0/0
(NaN, modelled as none) instead of surfacing an error, while on a
non-empty signal it returns the finite quotient energy/length (shown at a
singleton signal of energy 1). -/
theorem power_empty_vs_nonempty :
    Signal.power (Signal.new []) = none
      ∧ Signal.power (Signal.new [1]) = some 1 := by
  refine ⟨by simp [Signal.power, Signal.new, div64], ?_⟩
  norm_num [Signal.power, Signal.new, Signal.energy, div64]

/-- Loop of Signal::add_noise from src/signals.rs: the data vector is
mapped in order, each element consuming the next draw from the random
normal source, which is modelled as an oracle stream of real values
indexed by position. -/
def addNoiseAux (noise : ℕ → ℝ) : List ℂ → ℕ → List ℂ
  | [], _ => []
  | x :: xs, i => (x + (noise i : ℂ)) :: addNoiseAux noise xs (i + 1)

/-- Signal::add_noise from src/signals.rs: adds a real draw to each
sample (the f64 draw becomes a complex number with zero imaginary part,
so only the real component moves) and keeps the sample_freq field. -/
def Signal.add_noise (s : Signal) (noise : ℕ → ℝ) : Signal :=
  { data := addNoiseAux noise s.data 0, sample_freq := s.sample_freq }

lemma addNoiseAux_length (noise : ℕ → ℝ) :
    ∀ (l : List ℂ) (i : ℕ), (addNoiseAux noise l i).length = l.length := by
  intro l
  induction l with
  | nil => intro i; rfl
  | cons x xs ih =>
    intro i
    simp [addNoiseAux, ih]

lemma addNoiseAux_getElem (noise : ℕ → ℝ) :
    ∀ (l : List ℂ) (i n : ℕ),
      (addNoiseAux noise l i)[n]?
        = l[n]?.map (fun x => x + ((noise (i + n) : ℝ) : ℂ)) := by
  intro l
  induction l with
  | nil =>
    intro i n
    simp [addNoiseAux]
  | cons x xs ih =>
    intro i n
    cases n with
    | zero => simp [addNoiseAux]
    | succ m =>
      simp only [addNoiseAux, List.getElem?_cons_succ]
      rw [ih (i + 1) m]
      have harg : i + 1 + m = i + (m + 1) := by omega
      rw [harg]

/-- C9: add_noise keeps the length and the declared sample rate of the
signal, and every sample keeps its imaginary part exactly: the real draw
is added as a complex number with zero imaginary part, so only the real
components are perturbed. -/
theorem add_noise_matches_spec (s : Signal) (noise : ℕ → ℝ) :
    (s.add_noise noise).data.length = s.data.length
      ∧ (s.add_noise noise).sample_freq = s.sample_freq
      ∧ ∀ n : ℤ, ((s.add_noise noise).get n).im = (s.get n).im := by
  have hlen : (s.add_noise noise).data.length = s.data.length :=
    addNoiseAux_length noise s.data 0
  refine ⟨hlen, rfl, ?_⟩
  intro n
  by_cases hout : n < 0 ∨ (s.data.length : ℤ) ≤ n
  · have hout2 : n < 0 ∨ ((s.add_noise noise).data.length : ℤ) ≤ n := by
      rw [hlen]
      exact hout
    rw [Signal.get, Signal.get, if_pos hout2, if_pos hout]
  · push_neg at hout
    obtain ⟨hn0, hnlt⟩ := hout
    obtain ⟨m, rfl⟩ : ∃ m : ℕ, (m : ℤ) = n := ⟨n.toNat, Int.toNat_of_nonneg hn0⟩
    have hm : m < s.data.length := by exact_mod_cast hnlt
    rw [Signal.get_in_range _ m (by rw [hlen]; exact hm), Signal.get_in_range _ m hm]
    show ((addNoiseAux noise s.data 0).getD m 0).im = _
    rw [List.getD_eq_getElem?_getD, addNoiseAux_getElem noise s.data 0 m,
      List.getD_eq_getElem?_getD, List.getElem?_eq_getElem hm]
    simp

/-! Frequency domain (src/fft.rs). The numeric transform primitive (the
rustfft crate) and the Spectrum type (spectrums.rs) are not under src/;
both are modelled from the spec. -/

/-- Modelled from the spec: the Spectrum type of spectrums.rs, missing
from src/. Per §4.3 it mirrors DiscreteSignal's storage contract: an
ordered complex sequence plus a sample-rate. -/
structure Spectrum where
  data : List ℂ
  sample_rate : ℕ

/-- Modelled from the spec: Spectrum::new, wrapping a bin vector and a
sample-rate (as used by ForwardFFT::process in src/fft.rs). -/
def Spectrum.new (data : List ℂ) (sample_rate : ℕ) : Spectrum :=
  { data := data, sample_rate := sample_rate }

/-- Modelled from the spec: Spectrum::to_vec, a copy of the bin vector. -/
def Spectrum.to_vec (sp : Spectrum) : List ℂ :=
  sp.data

/-- Sign of the DFT exponent: -1 for the forward direction, +1 for the
inverse direction. -/
def dftSign : Bool → ℂ
  | true => 1
  | false => -1

/-- DFT kernel exp(±2πi·j·k/n) of an n-point transform. -/
noncomputable def dftKernel (inverse : Bool) (n j k : ℕ) : ℂ :=
  Complex.exp (dftSign inverse * (2 * (Real.pi : ℂ) * Complex.I) * ((j : ℂ) * k) / n)

/-- Modelled from the spec: the external transform primitive (the rustfft
FFT value built by FFT::new(size, inverse)). Per §6 it is a deterministic
map from a complex sequence to a sequence of equal length, and per §1
that map is the discrete Fourier transform of the input, unnormalized in
both directions (the convention of the chosen primitive, which §9 leaves
to it). The spec gives the primitive no failure mode, and the wrapper in
src/fft.rs performs no size check, so the embedding applies the DFT at
the input's own length. -/
noncomputable def transformPrim (inverse : Bool) (input : List ℂ) : List ℂ :=
  (List.range input.length).map (fun k : ℕ =>
    ∑ j ∈ Finset.range input.length,
      input.getD j 0 * dftKernel inverse input.length j k)

/-- ForwardFFT from src/fft.rs: owns the primitive configured with a size
and the forward direction. -/
structure ForwardFFT where
  size : ℕ

/-- ForwardFFT::new from src/fft.rs. -/
def ForwardFFT.new (sample_size : ℕ) : ForwardFFT :=
  { size := sample_size }

/-- ForwardFFT::process from src/fft.rs: copies the signal's vector, runs
the primitive over it, and wraps the output together with the signal's
sample rate into a Spectrum. The input length is never validated against
the configured size. -/
noncomputable def ForwardFFT.process (_f : ForwardFFT) (v : Signal) : Spectrum :=
  Spectrum.new (transformPrim false v.to_vec) v.sample_freq

/-- InverseFFT from src/fft.rs: owns the primitive configured with a size
and the inverse direction. -/
structure InverseFFT where
  size : ℕ

/-- InverseFFT::new from src/fft.rs. -/
def InverseFFT.new (sample_size : ℕ) : InverseFFT :=
  { size := sample_size }

/-- InverseFFT::process from src/fft.rs: runs the primitive in the
inverse direction over the spectrum's vector and wraps the output with
Signal::new. The input length is never validated. -/
noncomputable def InverseFFT.process (_f : InverseFFT) (v : Spectrum) : Signal :=
  Signal.new (transformPrim true v.to_vec)

lemma transformPrim_length (inverse : Bool) (input : List ℂ) :
    (transformPrim inverse input).length = input.length := by
  simp [transformPrim]

/-- C3 counterexample: a ForwardFFT of size 4 processes a length-1 signal,
and an InverseFFT of size 4 a length-1 spectrum, without any error being
raised: each call returns normally with a result of the input's own
length, neither truncated nor padded to 4. The wrapper contains no size
check, and under the spec's model of the primitive no failure can occur
anywhere in the call. -/
theorem process_size_mismatch_no_error :
    ((ForwardFFT.new 4).process (Signal.new [1])).data.length = 1
      ∧ ((InverseFFT.new 4).process (Spectrum.new [1] 1)).data.length = 1 := by
  constructor
  · show (transformPrim false [1]).length = 1
    rw [transformPrim_length]
    rfl
  · show (transformPrim true [1]).length = 1
    rw [transformPrim_length]
    rfl

/-- C3 (amended): process performs no size validation: for every input,
whether its length matches the configured size or not, the whole vector
is handed to the primitive and the returned vector has exactly the
input's length. The wrapper never truncates, never pads and raises no
error of its own; any failure on a mismatch could only come from the
external primitive, whose spec interface is a total length-preserving
map. -/
theorem process_ignores_configured_size (n : ℕ) (v : Signal) (w : Spectrum) :
    ((ForwardFFT.new n).process v).data.length = v.data.length
      ∧ ((InverseFFT.new n).process w).data.length = w.data.length := by
  constructor
  · show (transformPrim false v.data).length = v.data.length
    rw [transformPrim_length]
  · show (transformPrim true w.data).length = w.data.length
    rw [transformPrim_length]

lemma dftKernel_comm (inverse : Bool) (n j k : ℕ) :
    dftKernel inverse n j k = dftKernel inverse n k j := by
  rw [dftKernel, dftKernel]
  congr 1
  ring

lemma dftKernel_true_mul_false (n a b k : ℕ) :
    dftKernel true n a k * dftKernel false n b k
      = Complex.exp (2 * (Real.pi : ℂ) * Complex.I * ((a : ℂ) - b) / n) ^ k := by
  rw [dftKernel, dftKernel, ← Complex.exp_nat_mul, ← Complex.exp_add]
  congr 1
  simp only [dftSign]
  ring

lemma dft_orthogonal (n : ℕ) (hn : 0 < n) (a b : ℕ) (ha : a < n) (hb : b < n) :
    ∑ k ∈ Finset.range n, dftKernel true n a k * dftKernel false n b k
      = if a = b then (n : ℂ) else 0 := by
  have hcast : (n : ℂ) ≠ 0 := Nat.cast_ne_zero.mpr hn.ne'
  by_cases hab : a = b
  · subst hab
    rw [if_pos rfl]
    have hz : Complex.exp (2 * (Real.pi : ℂ) * Complex.I * ((a : ℂ) - a) / n) = 1 := by
      simp
    calc ∑ k ∈ Finset.range n, dftKernel true n a k * dftKernel false n a k
        = ∑ k ∈ Finset.range n, (1 : ℂ) ^ k :=
          Finset.sum_congr rfl (fun k _ => by rw [dftKernel_true_mul_false, hz])
      _ = (n : ℂ) := by simp
  · rw [if_neg hab]
    have hpi : (2 * (Real.pi : ℂ) * Complex.I) ≠ 0 := by
      refine mul_ne_zero (mul_ne_zero two_ne_zero ?_) Complex.I_ne_zero
      exact Complex.ofReal_ne_zero.mpr Real.pi_ne_zero
    have hne1 : Complex.exp (2 * (Real.pi : ℂ) * Complex.I * ((a : ℂ) - b) / n) ≠ 1 := by
      intro h1
      obtain ⟨m, hm⟩ := Complex.exp_eq_one_iff.mp h1
      have h6 : 2 * (Real.pi : ℂ) * Complex.I * ((a : ℂ) - b)
          = 2 * (Real.pi : ℂ) * Complex.I * (m * n) := by
        field_simp at hm
        linear_combination hm
      have key : ((a : ℂ) - b) = m * n := mul_left_cancel₀ hpi h6
      have hZ : (a : ℤ) - b = m * n := by exact_mod_cast key
      have ha2 : (a : ℤ) < n := by exact_mod_cast ha
      have hb2 : (b : ℤ) < n := by exact_mod_cast hb
      have ha3 : (0 : ℤ) ≤ (a : ℤ) := Int.natCast_nonneg a
      have hb3 : (0 : ℤ) ≤ (b : ℤ) := Int.natCast_nonneg b
      have habZ : (a : ℤ) ≠ b := by exact_mod_cast hab
      have hn2 : (0 : ℤ) < n := by exact_mod_cast hn
      rcases lt_trichotomy m 0 with hm0 | hm0 | hm0
      · have hmn : m * n ≤ -n := by nlinarith [hm0]
        linarith
      · subst hm0
        simp at hZ
        omega
      · have hmn : (n : ℤ) ≤ m * n := by nlinarith [hm0]
        linarith
    have hζn : Complex.exp (2 * (Real.pi : ℂ) * Complex.I * ((a : ℂ) - b) / n) ^ n = 1 := by
      rw [← Complex.exp_nat_mul]
      have harg : (n : ℂ) * (2 * (Real.pi : ℂ) * Complex.I * ((a : ℂ) - b) / n)
          = ((a : ℤ) - b : ℤ) * (2 * (Real.pi : ℂ) * Complex.I) := by
        push_cast
        field_simp
        ring
      rw [harg, Complex.exp_int_mul_two_pi_mul_I]
    calc ∑ k ∈ Finset.range n, dftKernel true n a k * dftKernel false n b k
        = ∑ k ∈ Finset.range n,
            Complex.exp (2 * (Real.pi : ℂ) * Complex.I * ((a : ℂ) - b) / n) ^ k :=
          Finset.sum_congr rfl (fun k _ => dftKernel_true_mul_false n a b k)
      _ = (Complex.exp (2 * (Real.pi : ℂ) * Complex.I * ((a : ℂ) - b) / n) ^ n - 1)
            / (Complex.exp (2 * (Real.pi : ℂ) * Complex.I * ((a : ℂ) - b) / n) - 1) :=
          geom_sum_eq hne1 n
      _ = 0 := by rw [hζn]; simp

lemma transformPrim_getD (inverse : Bool) (input : List ℂ) (k : ℕ)
    (hk : k < input.length) :
    (transformPrim inverse input).getD k 0
      = ∑ j ∈ Finset.range input.length,
          input.getD j 0 * dftKernel inverse input.length j k := by
  rw [transformPrim, getD_range_map _ hk]

lemma transformPrim_round_trip (input : List ℂ) :
    transformPrim true (transformPrim false input)
      = input.map (fun c => (input.length : ℂ) * c) := by
  have hlen1 : (transformPrim false input).length = input.length :=
    transformPrim_length false input
  apply List.ext_getElem
  · rw [transformPrim_length, hlen1, List.length_map]
  · intro n h1 h2
    have hn : n < input.length := by
      rw [List.length_map] at h2
      exact h2
    rw [← List.getD_eq_getElem _ 0 h1, ← List.getD_eq_getElem _ 0 h2]
    rw [transformPrim_getD true _ n (by rw [hlen1]; exact hn), hlen1]
    have hstep1 : ∀ k ∈ Finset.range input.length,
        (transformPrim false input).getD k 0 * dftKernel true input.length k n
          = ∑ j ∈ Finset.range input.length,
              input.getD j 0 * dftKernel false input.length j k
                * dftKernel true input.length k n := by
      intro k hk
      rw [transformPrim_getD false input k (Finset.mem_range.mp hk), Finset.sum_mul]
    rw [Finset.sum_congr rfl hstep1, Finset.sum_comm]
    have hNpos : 0 < input.length := lt_of_le_of_lt (Nat.zero_le n) hn
    have hstep2 : ∀ j ∈ Finset.range input.length,
        (∑ k ∈ Finset.range input.length,
            input.getD j 0 * dftKernel false input.length j k
              * dftKernel true input.length k n)
          = if n = j then input.getD j 0 * (input.length : ℂ) else 0 := by
      intro j hj
      have hinner :
          (∑ k ∈ Finset.range input.length,
              input.getD j 0 * dftKernel false input.length j k
                * dftKernel true input.length k n)
            = input.getD j 0 * ∑ k ∈ Finset.range input.length,
                dftKernel true input.length n k * dftKernel false input.length j k := by
        rw [Finset.mul_sum]
        refine Finset.sum_congr rfl (fun k _ => ?_)
        rw [dftKernel_comm true input.length k n]
        ring
      rw [hinner, dft_orthogonal input.length hNpos n j hn (Finset.mem_range.mp hj)]
      split
      · rfl
      · exact mul_zero _
    rw [Finset.sum_congr rfl hstep2, Finset.sum_ite_eq,
      if_pos (Finset.mem_range.mpr hn)]
    have hR : (input.map (fun c => (input.length : ℂ) * c)).getD n 0
        = (input.length : ℂ) * input.getD n 0 := by
      rw [List.getD_eq_getElem?_getD, List.getElem?_map,
        List.getElem?_eq_getElem hn, List.getD_eq_getElem _ 0 hn]
      rfl
    rw [hR]
    ring

/-- C2: with the external primitive axiomatized as the deterministic
unnormalized DFT of the input's length, the inverse transform applied to
the forward transform of a length-N signal reproduces every sample
scaled by the fixed factor N — exactly the primitive's normalization
convention, under which forward followed by inverse is the identity
modulo that scaling. -/
theorem fft_round_trip (N : ℕ) (x : List ℂ) (h : x.length = N) :
    ((InverseFFT.new N).process ((ForwardFFT.new N).process (Signal.new x))).data
      = x.map (fun c => (N : ℂ) * c) := by
  show transformPrim true (transformPrim false x) = _
  rw [transformPrim_round_trip, h]

/-- Witness for C2 at the 4-point impulse signal of the repository's own
test. -/
theorem fft_round_trip_witness :
    ([(1 : ℂ), 0, 0, 0] : List ℂ).length = 4
      ∧ ((InverseFFT.new 4).process ((ForwardFFT.new 4).process
            (Signal.new [(1 : ℂ), 0, 0, 0]))).data
          = [(1 : ℂ), 0, 0, 0].map (fun c => (4 : ℂ) * c) :=
  ⟨rfl, fft_round_trip 4 [(1 : ℂ), 0, 0, 0] rfl⟩

end Dsp
